/-
Verification of the TMTPortal news/volatility pipeline.

Shallow embedding of:
  - integrations/news_api.py      (fetch_multi_provider_news: dedup, tz-normalize, sort, truncate)
  - integrations/stock_prices.py  (get_stock_quote_finnhub, get_batch_quotes)
  - integrations/volatility_service.py
        (store_quotes upsert, refresh_all_tickers chunking, get_volatile_stocks_from_db)
  - components/volatility_screener.py (get_cached_volatility_data)

Numeric fields (prices, percent changes) are embedded as rationals; timestamps
as integers (minutes).  Network fetching is abstracted as an oracle function
from a ticker to an optional quote; the pure post-processing is translated
line by line from the Python source.
-/
import Mathlib

/-! ## Generic insertion sort (models Python `list.sort(key=...)`) -/

def insertLe {α : Type} (le : α → α → Bool) (a : α) : List α → List α
  | [] => [a]
  | b :: bs => if le a b then a :: b :: bs else b :: insertLe le a bs

def isortLe {α : Type} (le : α → α → Bool) : List α → List α
  | [] => []
  | a :: as => insertLe le a (isortLe le as)

theorem perm_insertLe {α : Type} (le : α → α → Bool) (a : α) (l : List α) :
    List.Perm (insertLe le a l) (a :: l) := by
  induction l with
  | nil => simp [insertLe]
  | cons b bs ih =>
    by_cases h : le a b = true
    · simp [insertLe, h]
    · simp only [insertLe, h, if_false]
      exact List.Perm.trans (List.Perm.cons b ih) (List.Perm.swap a b bs)

theorem perm_isortLe {α : Type} (le : α → α → Bool) (l : List α) :
    List.Perm (isortLe le l) l := by
  induction l with
  | nil => simp [isortLe]
  | cons a as ih =>
    exact List.Perm.trans (perm_insertLe le a (isortLe le as)) (List.Perm.cons a ih)

theorem mem_isortLe {α : Type} (le : α → α → Bool) (l : List α) (x : α) :
    x ∈ isortLe le l ↔ x ∈ l :=
  (perm_isortLe le l).mem_iff

theorem mem_insertLe {α : Type} (le : α → α → Bool) (a : α) (l : List α) (x : α) :
    x ∈ insertLe le a l ↔ x = a ∨ x ∈ l := by
  rw [(perm_insertLe le a l).mem_iff]; simp

theorem pairwise_insertLe {α : Type} (le : α → α → Bool)
    (htot : ∀ x y, le x y = true ∨ le y x = true)
    (htrans : ∀ x y z, le x y = true → le y z = true → le x z = true)
    (a : α) (l : List α) (hl : l.Pairwise (fun x y => le x y = true)) :
    (insertLe le a l).Pairwise (fun x y => le x y = true) := by
  induction l with
  | nil => simp [insertLe]
  | cons b bs ih =>
    cases hl with
    | cons hb hbs =>
      by_cases h : le a b = true
      · simp only [insertLe, h, if_true]
        refine List.Pairwise.cons ?_ (List.Pairwise.cons hb hbs)
        intro y hy
        rcases List.mem_cons.mp hy with rfl | hy
        · exact h
        · exact htrans a b y h (hb y hy)
      · simp only [insertLe, h, if_false]
        refine List.Pairwise.cons ?_ (ih hbs)
        intro y hy
        rcases (mem_insertLe le a bs y).mp hy with heq | hy
        · rcases htot a b with h1 | h1
          · exact absurd h1 h
          · rw [heq]; exact h1
        · exact hb y hy

theorem pairwise_isortLe {α : Type} (le : α → α → Bool)
    (htot : ∀ x y, le x y = true ∨ le y x = true)
    (htrans : ∀ x y z, le x y = true → le y z = true → le x z = true)
    (l : List α) :
    (isortLe le l).Pairwise (fun x y => le x y = true) := by
  induction l with
  | nil => simp [isortLe]
  | cons a as ih => exact pairwise_insertLe le htot htrans a (isortLe le as) ih

/-! ## News article model (normalized schema of `_normalize_news_data`) -/

/-- A normalized news article.  `date` is the timestamp (an abstract instant),
`tzAware` records whether the Python `datetime` carries a `tzinfo`. -/
structure Article where
  date : Int := 0
  tzAware : Bool := false
  company : String := ""
  headline : String := ""
  summary : String := ""
  source : String := ""
  url : String := ""
  sector : String := "Technology"
  sentiment : String := "Neutral"
deriving DecidableEq, Repr

/-- Python `str.lower()`: lowercase every character. -/
def pyLower (s : String) : String := String.mk (s.data.map Char.toLower)

/-- Python `str.strip()`: drop leading and trailing whitespace. -/
def pyStrip (s : String) : String :=
  String.mk
    (((s.data.dropWhile Char.isWhitespace).reverse.dropWhile
        Char.isWhitespace).reverse)

/-- `article.get('headline', '').lower().strip()` from the dedup loop. -/
def normHead (s : String) : String := pyStrip (pyLower s)

/-- `article['date'] = article_date.replace(tzinfo=None)` guarded by
`tzinfo is not None`: strips the timezone flag, keeping the clock value. -/
def stripTz (a : Article) : Article :=
  if a.tzAware then { a with tzAware := false } else a

/-- State of the dedup loop: seen URLs, seen normalized headlines,
accumulated output (in order). -/
structure DedupState where
  seenUrls : List String
  seenHeads : List String
  acc : List Article

/-- One iteration of the dedup loop in `fetch_multi_provider_news`. -/
def dedupStep (st : DedupState) (a : Article) : DedupState :=
  let url := a.url
  let headline := normHead a.headline
  if url ≠ "" ∧ url ∈ st.seenUrls then st
  else if headline ≠ "" ∧ headline ∈ st.seenHeads then st
  else { seenUrls := url :: st.seenUrls,
         seenHeads := headline :: st.seenHeads,
         acc := st.acc ++ [stripTz a] }

/-- The dedup loop of `fetch_multi_provider_news` over the concatenated
provider results (`all_news`), in provider-iteration order. -/
def dedupNews (all_news : List Article) : List Article :=
  (all_news.foldl dedupStep ⟨[], [], []⟩).acc

/-- Comparison used by `deduplicated.sort(key=lambda x: x.get('date'), reverse=True)`:
descending by date. -/
def dateGe (x y : Article) : Bool := decide (y.date ≤ x.date)

/-- `fetch_multi_provider_news` after the provider fetches: deduplicate by
URL/headline, normalize timezones, sort by date descending, truncate to
`limit`.  `all_news` is the concatenation of the per-provider results. -/
def fetch_multi_provider_news (all_news : List Article) (limit : Nat) : List Article :=
  ((isortLe dateGe (dedupNews all_news)).take limit)

/-- Spec-side normalization of a URL for the claimed case-insensitive,
trimmed comparison (the code itself performs no such normalization). -/
def normUrl (s : String) : String := pyStrip (pyLower s)

/-! ## Stock quote model (`stock_prices.py`) -/

/-- A stock quote as built by the provider clients. -/
structure Quote where
  ticker : String := ""
  price : ℚ := 0
  change : ℚ := 0
  change_percent : ℚ := 0
  volume : ℚ := 0
  previous_close : ℚ := 0
  high : ℚ := 0
  low : ℚ := 0
  source : String := ""
deriving DecidableEq, Repr

/-- The JSON body of a successful Finnhub `/quote` response. -/
structure FinnhubResp where
  c : ℚ := 0
  pc : ℚ := 0
  h : ℚ := 0
  l : ℚ := 0
  v : ℚ := 0
deriving DecidableEq, Repr

/-- `get_stock_quote_finnhub` on a 200 response body `r`: the guard
`if data and data.get("c")` requires a truthy (nonzero) current price;
`change_percent = (change / previous * 100) if previous > 0 else 0`. -/
def get_stock_quote_finnhub (ticker : String) (r : FinnhubResp) : Option Quote :=
  if r.c ≠ 0 then
    some { ticker := ticker,
           price := r.c,
           change := r.c - r.pc,
           change_percent := if 0 < r.pc then (r.c - r.pc) / r.pc * 100 else 0,
           volume := r.v,
           previous_close := r.pc,
           high := r.h,
           low := r.l,
           source := "Finnhub" }
  else none

/-- The loop body of `get_batch_quotes`: `fetch` abstracts
`get_stock_quote` (provider call with fallback; any error yields `none`). -/
def batchLoop (fetch : String → Option Quote) : List String → List Quote
  | [] => []
  | t :: ts =>
    match fetch t with
    | some q => q :: batchLoop fetch ts
    | none => batchLoop fetch ts

/-- `get_batch_quotes(tickers, delay, max_tickers)`: truncates to the first
`max_tickers` tickers, then fetches each in order, dropping failures.
The `delay` sleep has no effect on the result and is not modeled. -/
def get_batch_quotes (fetch : String → Option Quote) (tickers : List String)
    (max_tickers : Nat) : List Quote :=
  batchLoop fetch (tickers.take max_tickers)

/-- An oracle that fails (provider error) exactly on ticker `t` and behaves
like `fetch` elsewhere. -/
def failAt (t : String) (fetch : String → Option Quote) : String → Option Quote :=
  fun u => if u = t then none else fetch u

/-! ## Batch refresh chunking (`refresh_all_tickers`) -/

/-- The chunks produced by `for i in range(0, len(tickers), chunk_size):
chunk = tickers[i:i + chunk_size]`.  The `cs = 0` case is degenerate
(Python raises on step 0); all theorems assume `0 < cs`. -/
def chunksOf {α : Type} : Nat → List α → List (List α)
  | _, [] => []
  | 0, l => [l]
  | cs + 1, x :: xs => (x :: xs.take cs) :: chunksOf (cs + 1) (xs.drop cs)
termination_by _ l => l.length
decreasing_by
  simp only [List.length_drop, List.length_cons]
  omega

/-- `refresh_all_tickers` as the list of `store_quotes` writes it issues:
one write per chunk whose `get_batch_quotes` result is nonempty
(`if quotes: store_quotes(quotes)`). -/
def refresh_all_tickers (fetch : String → Option Quote) (tickers : List String)
    (chunk_size : Nat) : List (List Quote) :=
  ((chunksOf chunk_size tickers).map
      (fun c => get_batch_quotes fetch c chunk_size)).filter
    (fun qs => !qs.isEmpty)

/-! ## Cache store (`volatility_service.py`) -/

/-- A row of the `stock_prices` table (`ticker` is the primary key). -/
structure Row where
  ticker : String := ""
  price : ℚ := 0
  change : ℚ := 0
  change_percent : ℚ := 0
  volume : ℚ := 0
  previous_close : ℚ := 0
  source : String := ""
  updatedAt : Int := 0
deriving DecidableEq, Repr

/-- The row written for a quote by `store_quotes` (`updated_at = datetime.now()`). -/
def rowOf (q : Quote) (now : Int) : Row :=
  { ticker := q.ticker, price := q.price, change := q.change,
    change_percent := q.change_percent, volume := q.volume,
    previous_close := q.previous_close, source := q.source, updatedAt := now }

/-- `INSERT ... ON CONFLICT (ticker) DO UPDATE SET ...`: if a row with the
ticker exists it is updated in place, otherwise the row is appended. -/
def upsert (db : List Row) (r : Row) : List Row :=
  if db.any (fun x => x.ticker = r.ticker) then
    db.map (fun x => if x.ticker = r.ticker then r else x)
  else db ++ [r]

/-- `store_quotes(quotes)`: upserts each quote in order, all with the same
`datetime.now()` write timestamp. -/
def store_quotes (db : List Row) (quotes : List Quote) (now : Int) : List Row :=
  quotes.foldl (fun d q => upsert d (rowOf q now)) db

/-- Cache states reachable from the freshly created (empty) `stock_prices`
table by `store_quotes` writes. -/
inductive Reachable : List Row → Prop
  | empty : Reachable []
  | store (db : List Row) (quotes : List Quote) (now : Int) :
      Reachable db → Reachable (store_quotes db quotes now)

/-! ## Volatility read path (`get_volatile_stocks_from_db`) -/

/-- Rows selected by `WHERE updated_at > %s` with
`cutoff_time = now - timedelta(minutes=max_age_minutes)` (times in minutes). -/
def freshRows (db : List Row) (now maxAge : Int) : List Row :=
  db.filter (fun r => now - maxAge < r.updatedAt)

/-- `ORDER BY ticker` comparison. -/
def tickerLe (x y : Row) : Bool := decide (x.ticker ≤ y.ticker)

/-- The `if change_pct >= threshold: gainers ... elif change_pct <= -threshold:
losers` loop, in row order. -/
def partMovers (threshold : ℚ) : List Row → List Row × List Row
  | [] => ([], [])
  | r :: rs =>
    let p := partMovers threshold rs
    if threshold ≤ r.change_percent then (r :: p.1, p.2)
    else if r.change_percent ≤ -threshold then (p.1, r :: p.2)
    else p

/-- `latest_update`: running maximum of `updated_at` over the fetched rows. -/
def latestUpdate (rows : List Row) : Option Int :=
  rows.foldl
    (fun acc r =>
      match acc with
      | none => some r.updatedAt
      | some m => if m < r.updatedAt then some r.updatedAt else some m)
    none

/-- Sort comparisons for `gainers.sort(key=..., reverse=True)` and
`losers.sort(key=...)`. -/
def cpGe (x y : Row) : Bool := decide (y.change_percent ≤ x.change_percent)

def cpLe (x y : Row) : Bool := decide (x.change_percent ≤ y.change_percent)

/-- Result dict of `get_volatile_stocks_from_db` (the `cache_age` display
string is derived from `latest_update` and not separately modeled). -/
structure VolRes where
  gainers : List Row
  losers : List Row
  total_checked : Nat
  volatile_count : Nat
  latest_update : Option Int
deriving Repr

/-- `get_volatile_stocks_from_db(threshold, max_age_minutes)` over cache
state `db` at time `now`. -/
def get_volatile_stocks_from_db (db : List Row) (now : Int) (threshold : ℚ)
    (maxAge : Int) : VolRes :=
  let fetched := isortLe tickerLe (freshRows db now maxAge)
  let p := partMovers threshold fetched
  { gainers := isortLe cpGe p.1,
    losers := isortLe cpLe p.2,
    total_checked := fetched.length,
    volatile_count := p.1.length + p.2.length,
    latest_update := latestUpdate fetched }

/-- Result dict of `get_cached_volatility_data`: when `total_checked == 0`
the component returns the explicit `needs_refresh` dict; otherwise it
passes the reader result through (no `needs_refresh` key, i.e. falsy). -/
structure ScrRes where
  gainers : List Row
  losers : List Row
  total_checked : Nat
  volatile_count : Nat
  needs_refresh : Bool
deriving Repr

/-- `get_cached_volatility_data(tickers, threshold, cache_minutes)` over
cache state `db` at time `now`. -/
def get_cached_volatility_data (db : List Row) (now : Int) (threshold : ℚ)
    (cache_minutes : Int) : ScrRes :=
  let results := get_volatile_stocks_from_db db now threshold cache_minutes
  if results.total_checked = 0 then
    { gainers := [], losers := [], total_checked := 0, volatile_count := 0,
      needs_refresh := true }
  else
    { gainers := results.gainers, losers := results.losers,
      total_checked := results.total_checked,
      volatile_count := results.volatile_count, needs_refresh := false }

/-! ## Helper lemmas: batch fetching -/

theorem batchLoop_eq_filterMap (fetch : String → Option Quote) (l : List String) :
    batchLoop fetch l = l.filterMap fetch := by
  induction l with
  | nil => simp [batchLoop]
  | cons t ts ih =>
    cases h : fetch t with
    | none => simp [batchLoop, h, ih, List.filterMap_cons]
    | some q => simp [batchLoop, h, ih, List.filterMap_cons]

theorem batchLoop_failAt (fetch : String → Option Quote) (t : String)
    (htick : ∀ u q, fetch u = some q → q.ticker = u) (l : List String) :
    batchLoop (failAt t fetch) l =
      (batchLoop fetch l).filter (fun q => q.ticker ≠ t) := by
  induction l with
  | nil => simp [batchLoop]
  | cons u us ih =>
    by_cases hu : u = t
    · subst hu
      cases h : fetch u with
      | none => simp [batchLoop, failAt, h, ih]
      | some q =>
        have hq : q.ticker = u := htick u q h
        simp [batchLoop, failAt, h, ih, List.filter_cons, hq]
    · cases h : fetch u with
      | none => simp [batchLoop, failAt, hu, h, ih]
      | some q =>
        have hq : q.ticker = u := htick u q h
        simp [batchLoop, failAt, hu, h, ih, List.filter_cons, hq]

/-! ## Helper lemmas: chunking -/

theorem chunksOf_flatten {α : Type} (cs : Nat) (l : List α) (hcs : 0 < cs) :
    (chunksOf cs l).flatten = l := by
  match cs, l with
  | _, [] => simp [chunksOf]
  | 0, _ :: _ => omega
  | c + 1, x :: xs =>
    have ih := chunksOf_flatten (c + 1) (xs.drop c) hcs
    simp only [chunksOf, List.flatten_cons, ih]
    simp [List.cons_append, List.take_append_drop]
termination_by l.length
decreasing_by
  simp only [List.length_drop, List.length_cons]
  omega

theorem chunksOf_length {α : Type} (cs : Nat) (l : List α) (hcs : 0 < cs) :
    (chunksOf cs l).length = (l.length + cs - 1) / cs := by
  match cs, l with
  | k, [] =>
    simp only [chunksOf, List.length_nil]
    exact (Nat.div_eq_of_lt (by omega)).symm
  | 0, _ :: _ => omega
  | c + 1, x :: xs =>
    have ih := chunksOf_length (c + 1) (xs.drop c) hcs
    simp only [chunksOf, List.length_cons, ih, List.length_drop]
    have hr : xs.length + 1 + (c + 1) - 1 = xs.length + (c + 1) := by omega
    rw [hr, Nat.add_div_right _ hcs]
    rcases le_or_lt c xs.length with h | h
    · have h1 : xs.length - c + (c + 1) - 1 = xs.length := by omega
      rw [h1]
    · have h1 : xs.length - c + (c + 1) - 1 = c := by omega
      rw [h1, Nat.div_eq_of_lt (by omega), Nat.div_eq_of_lt (by omega)]
termination_by l.length
decreasing_by
  simp only [List.length_drop, List.length_cons]
  omega

theorem chunksOf_mem_ne_nil {α : Type} (cs : Nat) (l : List α) (c : List α)
    (hc : c ∈ chunksOf cs l) : c ≠ [] := by
  match cs, l with
  | _, [] => simp [chunksOf] at hc
  | 0, y :: ys =>
    simp only [chunksOf, List.mem_singleton] at hc
    subst hc; simp
  | k + 1, x :: xs =>
    simp only [chunksOf, List.mem_cons] at hc
    rcases hc with rfl | hc
    · simp
    · exact chunksOf_mem_ne_nil (k + 1) (xs.drop k) c hc
termination_by l.length
decreasing_by
  simp only [List.length_drop, List.length_cons]
  omega

/-! ## Claims C8 and C10 -/

/-- C8: a provider error for one ticker only removes that ticker's quotes
from the batch result: the remaining tickers of the (truncated) list are
fetched exactly as before, no error propagates, and no quote for the
failing ticker appears. -/
theorem C8_batch_error_isolated (fetch : String → Option Quote) (t : String)
    (tickers : List String) (max_tickers : Nat)
    (htick : ∀ u q, fetch u = some q → q.ticker = u) :
    get_batch_quotes (failAt t fetch) tickers max_tickers =
        (get_batch_quotes fetch tickers max_tickers).filter
          (fun q => q.ticker ≠ t) ∧
      ∀ q ∈ get_batch_quotes (failAt t fetch) tickers max_tickers,
        q.ticker ≠ t := by
  constructor
  · exact batchLoop_failAt fetch t htick (tickers.take max_tickers)
  · intro q hq
    rw [get_batch_quotes, batchLoop_failAt fetch t htick] at hq
    exact of_decide_eq_true (List.mem_filter.mp hq).2

/-- C8 witness: with an oracle that errors on "BBB", the batch over
["AAA","BBB","CCC"] returns exactly the AAA and CCC quotes. -/
theorem C8_batch_error_isolated_witness :
    get_batch_quotes (failAt "BBB" (fun u => some { ticker := u }))
        ["AAA", "BBB", "CCC"] 50 =
      (get_batch_quotes (fun u => some { ticker := u })
        ["AAA", "BBB", "CCC"] 50).filter (fun q => q.ticker ≠ "BBB") := by
  have h := C8_batch_error_isolated (fun u => some { ticker := u }) "BBB"
    ["AAA", "BBB", "CCC"] 50
    (fun u q hq => by cases hq; rfl)
  exact h.1

/-- C10: `get_batch_quotes` returns, in input order, exactly the successful
quotes of the first `max_tickers` tickers; tickers beyond that position are
silently dropped. -/
theorem C10_batch_truncates (fetch : String → Option Quote)
    (tickers : List String) (max_tickers : Nat)
    (htick : ∀ u q, fetch u = some q → q.ticker = u) :
    get_batch_quotes fetch tickers max_tickers =
        (tickers.take max_tickers).filterMap fetch ∧
      ∀ t ∈ tickers.drop max_tickers, t ∉ tickers.take max_tickers →
        ∀ q ∈ get_batch_quotes fetch tickers max_tickers, q.ticker ≠ t := by
  constructor
  · exact batchLoop_eq_filterMap fetch (tickers.take max_tickers)
  · intro t _ htnotin q hq
    rw [get_batch_quotes, batchLoop_eq_filterMap] at hq
    rcases List.mem_filterMap.mp hq with ⟨u, hu, hfu⟩
    have := htick u q hfu
    subst this
    intro hqt
    exact htnotin (hqt ▸ hu)

/-- C10 witness: with 3 tickers and `max_tickers = 2`, only the first two
are fetched, in order. -/
theorem C10_batch_truncates_witness :
    get_batch_quotes (fun u => some { ticker := u }) ["AAA", "BBB", "CCC"] 2 =
      (["AAA", "BBB", "CCC"].take 2).filterMap (fun u => some { ticker := u }) := by
  have h := C10_batch_truncates (fun u => some { ticker := u })
    ["AAA", "BBB", "CCC"] 2 (fun u q hq => by cases hq; rfl)
  exact h.1

/-! ## Claim C5: batch refresh chunking -/

/-- C5: with `chunk_size > 0`, `refresh_all_tickers` splits the ticker list
into `ceil(N/chunk_size)` chunks whose concatenation is exactly the input
(hence each chunk in input relative order, each ticker exactly once), and
issues one cache write per chunk whose fetch yields quotes. -/
theorem C5_refresh_chunking (fetch : String → Option Quote)
    (tickers : List String) (chunk_size : Nat) (hcs : 0 < chunk_size) :
    (chunksOf chunk_size tickers).length =
        (tickers.length + chunk_size - 1) / chunk_size ∧
      (chunksOf chunk_size tickers).flatten = tickers ∧
      refresh_all_tickers fetch tickers chunk_size =
        ((chunksOf chunk_size tickers).filter
            (fun c => !(get_batch_quotes fetch c chunk_size).isEmpty)).map
          (fun c => get_batch_quotes fetch c chunk_size) := by
  refine ⟨chunksOf_length chunk_size tickers hcs,
    chunksOf_flatten chunk_size tickers hcs, ?_⟩
  rw [refresh_all_tickers, List.filter_map]
  rfl

/-- C5 witness: the spec scenario — tickers ["AAA","BBB","CCC"], chunk
size 2 gives chunks [["AAA","BBB"],["CCC"]] and one write per chunk. -/
theorem C5_refresh_chunking_witness :
    (chunksOf 2 ["AAA", "BBB", "CCC"]).length = (3 + 2 - 1) / 2 ∧
      (chunksOf 2 ["AAA", "BBB", "CCC"]).flatten = ["AAA", "BBB", "CCC"] ∧
      refresh_all_tickers (fun u => some { ticker := u }) ["AAA", "BBB", "CCC"] 2 =
        ((chunksOf 2 ["AAA", "BBB", "CCC"]).filter
            (fun c => !(get_batch_quotes (fun u => some { ticker := u }) c 2).isEmpty)).map
          (fun c => get_batch_quotes (fun u => some { ticker := u }) c 2) :=
  C5_refresh_chunking (fun u => some { ticker := u }) ["AAA", "BBB", "CCC"] 2
    (by decide)

/-! ## Claim C6: upsert semantics of the cache store -/

theorem filter_map_replace (r : Row) (db : List Row)
    (h : (db.map Row.ticker).Nodup) :
    ((db.map (fun x => if x.ticker = r.ticker then r else x)).filter
        (fun x => x.ticker = r.ticker)) =
      if db.any (fun x => x.ticker = r.ticker) then [r] else [] := by
  induction db with
  | nil => simp
  | cons x xs ih =>
    simp only [List.map_cons, List.nodup_cons] at h
    by_cases hxt : x.ticker = r.ticker
    · have hxs : ∀ y ∈ xs, ¬(y.ticker = r.ticker) := by
        intro y hy hyr
        exact h.1 (List.mem_map.mpr ⟨y, hy, by rw [hyr, hxt]⟩)
      have hany : xs.any (fun x => x.ticker = r.ticker) = false := by
        rw [List.any_eq_false]
        intro y hy
        simp only [decide_eq_true_eq]
        exact hxs y hy
      simp [hxt, List.filter_cons, hany, ih h.2]
    · simp [hxt, List.filter_cons, ih h.2]

theorem upsert_filter (db : List Row) (r : Row)
    (h : (db.map Row.ticker).Nodup) :
    (upsert db r).filter (fun x => x.ticker = r.ticker) = [r] := by
  by_cases hany : db.any (fun x => x.ticker = r.ticker)
  · rw [upsert, if_pos hany, filter_map_replace r db h, if_pos hany]
  · rw [upsert, if_neg hany, List.filter_append]
    have h1 : db.filter (fun x => x.ticker = r.ticker) = [] := by
      rw [List.filter_eq_nil_iff]
      intro a ha
      simp only [decide_eq_true_eq]
      rw [Bool.not_eq_true, List.any_eq_false] at hany
      have := hany a ha
      simpa using this
    rw [h1]
    simp

theorem upsert_nodup (db : List Row) (r : Row)
    (h : (db.map Row.ticker).Nodup) :
    ((upsert db r).map Row.ticker).Nodup := by
  by_cases hany : db.any (fun x => x.ticker = r.ticker)
  · rw [upsert, if_pos hany]
    have hmap : (db.map (fun x => if x.ticker = r.ticker then r else x)).map
        Row.ticker = db.map Row.ticker := by
      rw [List.map_map]
      apply List.map_congr_left
      intro a _
      by_cases hat : a.ticker = r.ticker
      · simp [Function.comp, hat]
      · simp [Function.comp, hat]
    rw [hmap]
    exact h
  · rw [upsert, if_neg hany, List.map_append]
    rw [List.nodup_append]
    refine ⟨h, List.nodup_singleton _, ?_⟩
    intro a ha
    rcases List.mem_map.mp ha with ⟨x, hx, hxa⟩
    rw [Bool.not_eq_true, List.any_eq_false] at hany
    have := hany x hx
    simp only [decide_eq_true_eq] at this
    simp only [List.map_cons, List.map_nil, List.mem_singleton]
    intro hcontra
    exact this (by rw [← hxa] at hcontra; exact hcontra)

theorem store_quotes_nodup (quotes : List Quote) (db : List Row) (now : Int)
    (h : (db.map Row.ticker).Nodup) :
    ((store_quotes db quotes now).map Row.ticker).Nodup := by
  induction quotes generalizing db with
  | nil => exact h
  | cons q qs ih =>
    rw [store_quotes, List.foldl_cons]
    exact ih (upsert db (rowOf q now)) (upsert_nodup db (rowOf q now) h)

theorem reachable_nodup (db : List Row) (h : Reachable db) :
    (db.map Row.ticker).Nodup := by
  induction h with
  | empty => simp
  | store db2 quotes now _ ih => exact store_quotes_nodup quotes db2 now ih

/-- C6: in every reachable cache state the tickers are pairwise distinct
(at most one row per ticker), and upserting the same ticker twice leaves
exactly one row for it, carrying the second write's fields and timestamp. -/
theorem C6_upsert_one_row (db : List Row) (q1 q2 : Quote) (t1 t2 : Int)
    (hdb : Reachable db) (_ht : q1.ticker = q2.ticker) :
    (∀ db2 : List Row, Reachable db2 → (db2.map Row.ticker).Nodup) ∧
      (store_quotes (store_quotes db [q1] t1) [q2] t2).filter
          (fun r => r.ticker = q2.ticker) = [rowOf q2 t2] := by
  refine ⟨reachable_nodup, ?_⟩
  have h1 : Reachable (store_quotes db [q1] t1) := Reachable.store db [q1] t1 hdb
  have h2 : ((store_quotes db [q1] t1).map Row.ticker).Nodup :=
    reachable_nodup _ h1
  have h3 : store_quotes (store_quotes db [q1] t1) [q2] t2 =
      upsert (store_quotes db [q1] t1) (rowOf q2 t2) := by
    rw [store_quotes, List.foldl_cons, List.foldl_nil]
  rw [h3]
  have h4 : (rowOf q2 t2).ticker = q2.ticker := rfl
  rw [← h4]
  exact upsert_filter (store_quotes db [q1] t1) (rowOf q2 t2) h2

/-- C6 witness: writing AAPL twice into the empty store leaves exactly the
second row. -/
theorem C6_upsert_one_row_witness :
    (store_quotes (store_quotes [] [{ ticker := "AAPL", price := 1 }] 0)
        [{ ticker := "AAPL", price := 2 }] 5).filter
      (fun r => r.ticker = Quote.ticker { ticker := "AAPL", price := 2 }) =
      [rowOf { ticker := "AAPL", price := 2 } 5] :=
  (C6_upsert_one_row [] { ticker := "AAPL", price := 1 }
    { ticker := "AAPL", price := 2 } 0 5 Reachable.empty rfl).2

/-! ## Claim C9: sign of change_percent -/

/-- The quote the Finnhub client builds for a response with current price 5
and previous close 0. -/
def c9quote : Quote :=
  { ticker := "XYZ", price := 5, change := 5, change_percent := 0,
    volume := 0, previous_close := 0, high := 0, low := 0, source := "Finnhub" }

/-- C9 counterexample: with previous close 0 and current price 5, the
Finnhub client produces change = 5 > 0 but change_percent = 0 (the
`if previous > 0 else 0` guard), so a positive change does not imply a
positive change_percent. -/
theorem C9_counterexample :
    get_stock_quote_finnhub "XYZ" { c := 5 } = some c9quote ∧
      0 < c9quote.change ∧ ¬ 0 < c9quote.change_percent := by
  refine ⟨?_, by norm_num [c9quote], by norm_num [c9quote]⟩
  rw [get_stock_quote_finnhub]
  norm_num [c9quote]

/-- C9 amended: for every quote the Finnhub client produces, if the
previous close is positive then the sign of change_percent matches the
sign of change (except at zero); if the previous close is not positive,
change_percent is 0 regardless of the change. -/
theorem C9_sign_amended (ticker : String) (r : FinnhubResp) (q : Quote)
    (hq : get_stock_quote_finnhub ticker r = some q) :
    (0 < r.pc →
        ((0 < q.change → 0 < q.change_percent) ∧
          (q.change < 0 → q.change_percent < 0))) ∧
      (r.pc ≤ 0 → q.change_percent = 0) := by
  rw [get_stock_quote_finnhub] at hq
  by_cases hc : r.c ≠ 0
  · rw [if_pos hc] at hq
    have hq2 := Option.some.inj hq
    subst hq2
    constructor
    · intro hpc
      simp only [if_pos hpc]
      constructor
      · intro hchg
        have h1 : (0 : ℚ) < (r.c - r.pc) / r.pc := div_pos hchg hpc
        have h2 : (0 : ℚ) < 100 := by norm_num
        exact mul_pos h1 h2
      · intro hchg
        have h1 : (r.c - r.pc) / r.pc < 0 := div_neg_of_neg_of_pos hchg hpc
        have h2 : (0 : ℚ) < 100 := by norm_num
        exact mul_neg_of_neg_of_pos h1 h2
    · intro hpc
      simp only [if_neg (not_lt.mpr hpc)]
  · rw [if_neg hc] at hq
    cases hq

/-- The quote built for response c = 6, pc = 2 (change 4, percent 200). -/
def c9wq : Quote :=
  { ticker := "A", price := 6, change := 4, change_percent := 200,
    volume := 0, previous_close := 2, high := 0, low := 0, source := "Finnhub" }

/-- C9 witness: the amended sign property instantiated at a concrete
response with positive previous close. -/
theorem C9_sign_amended_witness :
    (0 < FinnhubResp.pc { c := 6, pc := 2 } →
        ((0 < c9wq.change → 0 < c9wq.change_percent) ∧
          (c9wq.change < 0 → c9wq.change_percent < 0))) ∧
      (FinnhubResp.pc { c := 6, pc := 2 } ≤ 0 → c9wq.change_percent = 0) :=
  C9_sign_amended "A" { c := 6, pc := 2 } c9wq (by
    rw [get_stock_quote_finnhub]
    norm_num [c9wq])

/-! ## Claims C2 and C7: the volatility read surface -/

theorem partMovers_fst_mem (t : ℚ) (rows : List Row) :
    ∀ x ∈ (partMovers t rows).1, x ∈ rows ∧ t ≤ x.change_percent := by
  induction rows with
  | nil => intro x hx; simp [partMovers] at hx
  | cons r rs ih =>
    intro x hx
    by_cases h1 : t ≤ r.change_percent
    · simp only [partMovers, if_pos h1] at hx
      rcases List.mem_cons.mp hx with rfl | hx
      · exact ⟨List.mem_cons_self _ _, h1⟩
      · exact ⟨List.mem_cons_of_mem r (ih x hx).1, (ih x hx).2⟩
    · by_cases h2 : r.change_percent ≤ -t
      · simp only [partMovers, if_neg h1, if_pos h2] at hx
        exact ⟨List.mem_cons_of_mem r (ih x hx).1, (ih x hx).2⟩
      · simp only [partMovers, if_neg h1, if_neg h2] at hx
        exact ⟨List.mem_cons_of_mem r (ih x hx).1, (ih x hx).2⟩

theorem partMovers_snd_mem (t : ℚ) (rows : List Row) :
    ∀ x ∈ (partMovers t rows).2,
      x ∈ rows ∧ ¬t ≤ x.change_percent ∧ x.change_percent ≤ -t := by
  induction rows with
  | nil => intro x hx; simp [partMovers] at hx
  | cons r rs ih =>
    intro x hx
    by_cases h1 : t ≤ r.change_percent
    · simp only [partMovers, if_pos h1] at hx
      exact ⟨List.mem_cons_of_mem r (ih x hx).1, (ih x hx).2⟩
    · by_cases h2 : r.change_percent ≤ -t
      · simp only [partMovers, if_neg h1, if_pos h2] at hx
        rcases List.mem_cons.mp hx with rfl | hx
        · exact ⟨List.mem_cons_self _ _, h1, h2⟩
        · exact ⟨List.mem_cons_of_mem r (ih x hx).1, (ih x hx).2⟩
      · simp only [partMovers, if_neg h1, if_neg h2] at hx
        exact ⟨List.mem_cons_of_mem r (ih x hx).1, (ih x hx).2⟩

theorem length_isortLe {α : Type} (le : α → α → Bool) (l : List α) :
    (isortLe le l).length = l.length :=
  (perm_isortLe le l).length_eq

theorem cpGe_total : ∀ x y : Row, cpGe x y = true ∨ cpGe y x = true := by
  intro x y
  simp only [cpGe, decide_eq_true_eq]
  exact le_total y.change_percent x.change_percent

theorem cpGe_trans : ∀ x y z : Row,
    cpGe x y = true → cpGe y z = true → cpGe x z = true := by
  intro x y z h1 h2
  simp only [cpGe, decide_eq_true_eq] at h1 h2 ⊢
  exact le_trans h2 h1

theorem cpLe_total : ∀ x y : Row, cpLe x y = true ∨ cpLe y x = true := by
  intro x y
  simp only [cpLe, decide_eq_true_eq]
  exact le_total x.change_percent y.change_percent

theorem cpLe_trans : ∀ x y z : Row,
    cpLe x y = true → cpLe y z = true → cpLe x z = true := by
  intro x y z h1 h2
  simp only [cpLe, decide_eq_true_eq] at h1 h2 ⊢
  exact le_trans h1 h2

/-- Tickers of the rows fetched by the freshness query stay pairwise
distinct when the cache state's are. -/
theorem fetched_nodup (db : List Row) (now maxAge : Int)
    (hnd : (db.map Row.ticker).Nodup) :
    ((isortLe tickerLe (freshRows db now maxAge)).map Row.ticker).Nodup := by
  have hsub : (freshRows db now maxAge).Sublist db := List.filter_sublist db
  have h1 : ((freshRows db now maxAge).map Row.ticker).Nodup :=
    (hsub.map Row.ticker).nodup hnd
  have hperm : List.Perm ((isortLe tickerLe (freshRows db now maxAge)).map
      Row.ticker) ((freshRows db now maxAge).map Row.ticker) :=
    (perm_isortLe tickerLe (freshRows db now maxAge)).map Row.ticker
  exact hperm.nodup_iff.mpr h1

/-- C2: every quote returned by `get_volatile_stocks_from_db` satisfies
`|change_percent| >= threshold` and comes from a cached row fresher than
`max_age`; no ticker appears in both gainers and losers; gainers are
sorted descending and losers ascending by change_percent. -/
theorem C2_volatile_read (db : List Row) (now : Int) (threshold : ℚ)
    (maxAge : Int) (hnd : (db.map Row.ticker).Nodup) :
    (∀ q ∈ (get_volatile_stocks_from_db db now threshold maxAge).gainers,
        threshold ≤ |q.change_percent| ∧ q ∈ db ∧ now - maxAge < q.updatedAt) ∧
      (∀ q ∈ (get_volatile_stocks_from_db db now threshold maxAge).losers,
        threshold ≤ |q.change_percent| ∧ q ∈ db ∧ now - maxAge < q.updatedAt) ∧
      (∀ q ∈ (get_volatile_stocks_from_db db now threshold maxAge).gainers,
        ∀ q2 ∈ (get_volatile_stocks_from_db db now threshold maxAge).losers,
          q.ticker ≠ q2.ticker) ∧
      (get_volatile_stocks_from_db db now threshold maxAge).gainers.Pairwise
        (fun x y => y.change_percent ≤ x.change_percent) ∧
      (get_volatile_stocks_from_db db now threshold maxAge).losers.Pairwise
        (fun x y => x.change_percent ≤ y.change_percent) := by
  have hg : ∀ q ∈ (get_volatile_stocks_from_db db now threshold maxAge).gainers,
      q ∈ isortLe tickerLe (freshRows db now maxAge) ∧
        threshold ≤ q.change_percent := by
    intro q hq
    rw [get_volatile_stocks_from_db] at hq
    simp only at hq
    exact partMovers_fst_mem threshold _ q ((mem_isortLe cpGe _ q).mp hq)
  have hl : ∀ q ∈ (get_volatile_stocks_from_db db now threshold maxAge).losers,
      q ∈ isortLe tickerLe (freshRows db now maxAge) ∧
        ¬threshold ≤ q.change_percent ∧ q.change_percent ≤ -threshold := by
    intro q hq
    rw [get_volatile_stocks_from_db] at hq
    simp only at hq
    exact partMovers_snd_mem threshold _ q ((mem_isortLe cpLe _ q).mp hq)
  have hfresh : ∀ q ∈ isortLe tickerLe (freshRows db now maxAge),
      q ∈ db ∧ now - maxAge < q.updatedAt := by
    intro q hq
    have h1 := (mem_isortLe tickerLe _ q).mp hq
    have h2 := List.mem_filter.mp h1
    exact ⟨h2.1, of_decide_eq_true h2.2⟩
  refine ⟨?_, ?_, ?_, ?_, ?_⟩
  · intro q hq
    have h1 := hg q hq
    have h2 := hfresh q h1.1
    exact ⟨le_trans h1.2 (le_abs_self _), h2⟩
  · intro q hq
    have h1 := hl q hq
    have h2 := hfresh q h1.1
    have h3 : threshold ≤ -q.change_percent := by linarith [h1.2.2]
    exact ⟨le_trans h3 (neg_le_abs _), h2⟩
  · intro q hq q2 hq2 hticker
    have h1 := hg q hq
    have h2 := hl q2 hq2
    have hndf := fetched_nodup db now maxAge hnd
    have heq : q = q2 :=
      List.inj_on_of_nodup_map hndf h1.1 h2.1 hticker
    exact h2.2.1 (heq ▸ h1.2)
  · have := pairwise_isortLe cpGe cpGe_total cpGe_trans
      (partMovers threshold (isortLe tickerLe (freshRows db now maxAge))).1
    rw [get_volatile_stocks_from_db]
    simp only
    refine List.Pairwise.imp ?_ this
    intro x y hxy
    simpa [cpGe] using hxy
  · have := pairwise_isortLe cpLe cpLe_total cpLe_trans
      (partMovers threshold (isortLe tickerLe (freshRows db now maxAge))).2
    rw [get_volatile_stocks_from_db]
    simp only
    refine List.Pairwise.imp ?_ this
    intro x y hxy
    simpa [cpLe] using hxy

/-- Concrete two-row cache used to witness C2. -/
def c2db : List Row :=
  [{ ticker := "AAA", change_percent := 3, updatedAt := 0 },
   { ticker := "BBB", change_percent := -4, updatedAt := 0 }]

/-- C2 witness: the read contract instantiated on a concrete fresh cache
with one gainer and one loser. -/
theorem C2_volatile_read_witness :
    (∀ q ∈ (get_volatile_stocks_from_db c2db 5 2 15).gainers,
        (2 : ℚ) ≤ |q.change_percent| ∧ q ∈ c2db ∧ (5 : Int) - 15 < q.updatedAt) ∧
      (∀ q ∈ (get_volatile_stocks_from_db c2db 5 2 15).losers,
        (2 : ℚ) ≤ |q.change_percent| ∧ q ∈ c2db ∧ (5 : Int) - 15 < q.updatedAt) ∧
      (∀ q ∈ (get_volatile_stocks_from_db c2db 5 2 15).gainers,
        ∀ q2 ∈ (get_volatile_stocks_from_db c2db 5 2 15).losers,
          q.ticker ≠ q2.ticker) ∧
      (get_volatile_stocks_from_db c2db 5 2 15).gainers.Pairwise
        (fun x y => y.change_percent ≤ x.change_percent) ∧
      (get_volatile_stocks_from_db c2db 5 2 15).losers.Pairwise
        (fun x y => x.change_percent ≤ y.change_percent) :=
  C2_volatile_read c2db 5 2 15 (by decide)

/-- C7: the screener's `needs_refresh` flag is raised exactly when zero
cached rows are fresher than the cutoff, so callers can distinguish "no
data" from "no movers"; in particular a single AAPL row aged 20 minutes
with max_age 15 is excluded and `needs_refresh` is reported. -/
theorem C7_needs_refresh (db : List Row) (now : Int) (threshold : ℚ)
    (cache_minutes : Int) :
    ((get_cached_volatility_data db now threshold cache_minutes).needs_refresh =
          true ↔ freshRows db now cache_minutes = []) ∧
      (get_cached_volatility_data [{ ticker := "AAPL", updatedAt := -20 }]
          0 2 15).needs_refresh = true ∧
      (get_volatile_stocks_from_db [{ ticker := "AAPL", updatedAt := -20 }]
          0 2 15).total_checked = 0 := by
  refine ⟨?_, by decide, by decide⟩
  rw [get_cached_volatility_data]
  simp only [get_volatile_stocks_from_db]
  by_cases h : (isortLe tickerLe (freshRows db now cache_minutes)).length = 0
  · rw [if_pos h]
    simp only [true_iff]
    rw [length_isortLe] at h
    exact List.length_eq_zero.mp h
  · rw [if_neg h]
    rw [length_isortLe] at h
    constructor
    · intro hcontra
      cases hcontra
    · intro hnil
      exact absurd (by rw [hnil]; rfl) h

/-! ## News dedup loop invariants -/

theorem stripTz_url (a : Article) : (stripTz a).url = a.url := by
  rw [stripTz]; by_cases h : a.tzAware <;> simp [h]

theorem stripTz_headline (a : Article) : (stripTz a).headline = a.headline := by
  rw [stripTz]; by_cases h : a.tzAware <;> simp [h]

theorem stripTz_tzAware (a : Article) : (stripTz a).tzAware = false := by
  rw [stripTz]; by_cases h : a.tzAware <;> simp [h]

theorem dedupStep_skip_url (st : DedupState) (a : Article)
    (h : a.url ≠ "" ∧ a.url ∈ st.seenUrls) : dedupStep st a = st := by
  rw [dedupStep]
  simp only [if_pos h]

theorem dedupStep_skip_head (st : DedupState) (a : Article)
    (h1 : ¬(a.url ≠ "" ∧ a.url ∈ st.seenUrls))
    (h2 : normHead a.headline ≠ "" ∧ normHead a.headline ∈ st.seenHeads) :
    dedupStep st a = st := by
  rw [dedupStep]
  simp only [if_neg h1, if_pos h2]

theorem dedupStep_keep (st : DedupState) (a : Article)
    (h1 : ¬(a.url ≠ "" ∧ a.url ∈ st.seenUrls))
    (h2 : ¬(normHead a.headline ≠ "" ∧ normHead a.headline ∈ st.seenHeads)) :
    dedupStep st a =
      { seenUrls := a.url :: st.seenUrls,
        seenHeads := normHead a.headline :: st.seenHeads,
        acc := st.acc ++ [stripTz a] } := by
  rw [dedupStep]
  simp only [if_neg h1, if_neg h2]

/-- Articles already accumulated stay in the accumulator. -/
theorem foldl_acc_sub (l : List Article) (st : DedupState) (x : Article)
    (hx : x ∈ st.acc) : x ∈ (l.foldl dedupStep st).acc := by
  induction l generalizing st with
  | nil => exact hx
  | cons a as ih =>
    rw [List.foldl_cons]
    apply ih
    by_cases h1 : a.url ≠ "" ∧ a.url ∈ st.seenUrls
    · rw [dedupStep_skip_url st a h1]; exact hx
    · by_cases h2 : normHead a.headline ≠ "" ∧ normHead a.headline ∈ st.seenHeads
      · rw [dedupStep_skip_head st a h1 h2]; exact hx
      · rw [dedupStep_keep st a h1 h2]
        exact List.mem_append_left _ hx

/-- Every URL the loop has seen comes from the initial state or from a
processed article. -/
theorem foldl_seenUrls_sub (l : List Article) (st : DedupState) (u : String)
    (hu : u ∈ (l.foldl dedupStep st).seenUrls) :
    u ∈ st.seenUrls ∨ ∃ a ∈ l, u = a.url := by
  induction l generalizing st with
  | nil => exact Or.inl hu
  | cons a as ih =>
    rw [List.foldl_cons] at hu
    rcases ih (dedupStep st a) hu with h | ⟨b, hb, hbu⟩
    · by_cases h1 : a.url ≠ "" ∧ a.url ∈ st.seenUrls
      · rw [dedupStep_skip_url st a h1] at h
        exact Or.inl h
      · by_cases h2 : normHead a.headline ≠ "" ∧
            normHead a.headline ∈ st.seenHeads
        · rw [dedupStep_skip_head st a h1 h2] at h
          exact Or.inl h
        · rw [dedupStep_keep st a h1 h2] at h
          rcases List.mem_cons.mp h with rfl | h
          · exact Or.inr ⟨a, List.mem_cons_self _ _, rfl⟩
          · exact Or.inl h
    · exact Or.inr ⟨b, List.mem_cons_of_mem a hb, hbu⟩

/-- Every normalized headline the loop has seen comes from the initial
state or from a processed article. -/
theorem foldl_seenHeads_sub (l : List Article) (st : DedupState) (u : String)
    (hu : u ∈ (l.foldl dedupStep st).seenHeads) :
    u ∈ st.seenHeads ∨ ∃ a ∈ l, u = normHead a.headline := by
  induction l generalizing st with
  | nil => exact Or.inl hu
  | cons a as ih =>
    rw [List.foldl_cons] at hu
    rcases ih (dedupStep st a) hu with h | ⟨b, hb, hbu⟩
    · by_cases h1 : a.url ≠ "" ∧ a.url ∈ st.seenUrls
      · rw [dedupStep_skip_url st a h1] at h
        exact Or.inl h
      · by_cases h2 : normHead a.headline ≠ "" ∧
            normHead a.headline ∈ st.seenHeads
        · rw [dedupStep_skip_head st a h1 h2] at h
          exact Or.inl h
        · rw [dedupStep_keep st a h1 h2] at h
          rcases List.mem_cons.mp h with rfl | h
          · exact Or.inr ⟨a, List.mem_cons_self _ _, rfl⟩
          · exact Or.inl h
    · exact Or.inr ⟨b, List.mem_cons_of_mem a hb, hbu⟩

/-- The no-duplicate-URL relation on output articles: two items may share
a URL only if it is empty. -/
def noDupUrl (x y : Article) : Prop := x.url = y.url → x.url = "" ∧ y.url = ""

/-- The no-duplicate-headline relation: two items may share a normalized
headline only if it is empty. -/
def noDupHead (x y : Article) : Prop :=
  normHead x.headline = normHead y.headline →
    normHead x.headline = "" ∧ normHead y.headline = ""

/-- Main loop invariant: the accumulator has pairwise distinct non-empty
URLs and normalized headlines, each recorded in the seen-sets. -/
theorem foldl_dedup_inv (l : List Article) (st : DedupState)
    (hu1 : st.acc.Pairwise noDupUrl)
    (hu2 : ∀ x ∈ st.acc, x.url ∈ st.seenUrls)
    (hh1 : st.acc.Pairwise noDupHead)
    (hh2 : ∀ x ∈ st.acc, normHead x.headline ∈ st.seenHeads) :
    (l.foldl dedupStep st).acc.Pairwise noDupUrl ∧
      (∀ x ∈ (l.foldl dedupStep st).acc, x.url ∈ (l.foldl dedupStep st).seenUrls) ∧
      (l.foldl dedupStep st).acc.Pairwise noDupHead ∧
      (∀ x ∈ (l.foldl dedupStep st).acc,
        normHead x.headline ∈ (l.foldl dedupStep st).seenHeads) := by
  induction l generalizing st with
  | nil => exact ⟨hu1, hu2, hh1, hh2⟩
  | cons a as ih =>
    rw [List.foldl_cons]
    by_cases h1 : a.url ≠ "" ∧ a.url ∈ st.seenUrls
    · rw [dedupStep_skip_url st a h1]
      exact ih st hu1 hu2 hh1 hh2
    · by_cases h2 : normHead a.headline ≠ "" ∧ normHead a.headline ∈ st.seenHeads
      · rw [dedupStep_skip_head st a h1 h2]
        exact ih st hu1 hu2 hh1 hh2
      · rw [dedupStep_keep st a h1 h2]
        apply ih
        · rw [List.pairwise_append]
          refine ⟨hu1, List.pairwise_singleton _ _, ?_⟩
          intro x hx y hy
          rcases List.mem_singleton.mp hy with rfl
          intro hxy
          rw [stripTz_url] at hxy ⊢
          by_cases ha : a.url = ""
          · exact ⟨hxy.trans ha, ha⟩
          · exfalso
            exact h1 ⟨ha, hxy ▸ hu2 x hx⟩
        · intro x hx
          rcases List.mem_append.mp hx with hx | hx
          · exact List.mem_cons_of_mem _ (hu2 x hx)
          · rcases List.mem_singleton.mp hx with rfl
            rw [stripTz_url]
            exact List.mem_cons_self _ _
        · rw [List.pairwise_append]
          refine ⟨hh1, List.pairwise_singleton _ _, ?_⟩
          intro x hx y hy
          rcases List.mem_singleton.mp hy with rfl
          intro hxy
          rw [stripTz_headline] at hxy ⊢
          by_cases ha : normHead a.headline = ""
          · exact ⟨hxy.trans ha, ha⟩
          · exfalso
            exact h2 ⟨ha, hxy ▸ hh2 x hx⟩
        · intro x hx
          rcases List.mem_append.mp hx with hx | hx
          · exact List.mem_cons_of_mem _ (hh2 x hx)
          · rcases List.mem_singleton.mp hx with rfl
            rw [stripTz_headline]
            exact List.mem_cons_self _ _

/-- All accumulated articles are timezone-naive. -/
theorem foldl_acc_naive (l : List Article) (st : DedupState)
    (h : ∀ x ∈ st.acc, x.tzAware = false) :
    ∀ x ∈ (l.foldl dedupStep st).acc, x.tzAware = false := by
  induction l generalizing st with
  | nil => exact h
  | cons a as ih =>
    rw [List.foldl_cons]
    apply ih
    by_cases h1 : a.url ≠ "" ∧ a.url ∈ st.seenUrls
    · rw [dedupStep_skip_url st a h1]; exact h
    · by_cases h2 : normHead a.headline ≠ "" ∧ normHead a.headline ∈ st.seenHeads
      · rw [dedupStep_skip_head st a h1 h2]; exact h
      · rw [dedupStep_keep st a h1 h2]
        intro x hx
        rcases List.mem_append.mp hx with hx | hx
        · exact h x hx
        · rcases List.mem_singleton.mp hx with rfl
          exact stripTz_tzAware a

theorem noDupUrl_symm : Symmetric noDupUrl := by
  intro x y h hyx
  rcases h hyx.symm with ⟨h1, h2⟩
  exact ⟨h2, h1⟩

theorem noDupHead_symm : Symmetric noDupHead := by
  intro x y h hyx
  rcases h hyx.symm with ⟨h1, h2⟩
  exact ⟨h2, h1⟩

theorem dedup_pairwise (articles : List Article) :
    (dedupNews articles).Pairwise noDupUrl ∧
      (dedupNews articles).Pairwise noDupHead := by
  have h := foldl_dedup_inv articles ⟨[], [], []⟩ (by simp) (by simp)
    (by simp) (by simp)
  exact ⟨h.1, h.2.2.1⟩

theorem dateGe_total : ∀ x y : Article, dateGe x y = true ∨ dateGe y x = true := by
  intro x y
  simp only [dateGe, decide_eq_true_eq]
  exact le_total y.date x.date

theorem dateGe_trans : ∀ x y z : Article,
    dateGe x y = true → dateGe y z = true → dateGe x z = true := by
  intro x y z h1 h2
  simp only [dateGe, decide_eq_true_eq] at h1 h2 ⊢
  exact le_trans h2 h1

/-! ## Claims C1, C3, C4: the news Aggregator -/

/-- First provider's article for the spec's duplicate-URL scenario. -/
def c1a1 : Article := { url := "http://x.com/1", headline := "a" }

/-- Second provider's article: the same URL uppercased. -/
def c1a2 : Article := { url := "HTTP://X.COM/1", headline := "b" }

/-- C1 counterexample: two articles whose non-empty URLs are equal after
case/whitespace normalization (the spec's own uppercased scenario) BOTH
survive the Aggregator, because the code deduplicates by exact URL match
with no normalization. -/
theorem C1_counterexample :
    normUrl c1a1.url = normUrl c1a2.url ∧ c1a1.url ≠ "" ∧ c1a2.url ≠ "" ∧
      c1a1 ≠ c1a2 ∧
      c1a1 ∈ fetch_multi_provider_news [c1a1, c1a2] 50 ∧
      c1a2 ∈ fetch_multi_provider_news [c1a1, c1a2] 50 := by
  decide

/-- C1 (amended): the Aggregator deduplicates by EXACT canonical URL match
(case-sensitive, untrimmed): no two output articles share a non-empty URL,
and the first record in provider-iteration order with a given non-empty URL
is the one kept, provided no earlier record shares its normalized headline
(otherwise the headline filter suppresses it without recording its URL). -/
theorem C1_url_dedup_amended (articles : List Article) (limit : Nat)
    (p s : List Article) (a : Article)
    (hsplit : articles = p ++ a :: s)
    (_hurl : a.url ≠ "")
    (hfirst : ∀ b ∈ p, b.url ≠ a.url)
    (hhead : ∀ b ∈ p, normHead b.headline ≠ normHead a.headline) :
    (fetch_multi_provider_news articles limit).Pairwise noDupUrl ∧
      stripTz a ∈ dedupNews articles := by
  constructor
  · have hd := (dedup_pairwise articles).1
    have hperm := perm_isortLe dateGe (dedupNews articles)
    have hs : (isortLe dateGe (dedupNews articles)).Pairwise noDupUrl :=
      (hperm.pairwise_iff (fun h => noDupUrl_symm h)).mpr hd
    exact List.Pairwise.sublist (List.take_sublist limit _) hs
  · subst hsplit
    rw [dedupNews, List.foldl_append, List.foldl_cons]
    apply foldl_acc_sub
    have hu : a.url ∉ (p.foldl dedupStep ⟨[], [], []⟩).seenUrls := by
      intro hmem
      rcases foldl_seenUrls_sub p ⟨[], [], []⟩ a.url hmem with h | ⟨b, hb, hab⟩
      · simp at h
      · exact hfirst b hb hab.symm
    have hh : normHead a.headline ∉
        (p.foldl dedupStep ⟨[], [], []⟩).seenHeads := by
      intro hmem
      rcases foldl_seenHeads_sub p ⟨[], [], []⟩ (normHead a.headline) hmem with
        h | ⟨b, hb, hab⟩
      · simp at h
      · exact hhead b hb hab.symm
    rw [dedupStep_keep _ a (fun hc => hu hc.2) (fun hc => hh hc.2)]
    exact List.mem_append_right _ (List.mem_singleton.mpr rfl)

/-- C1 witness: with a single article carrying a non-empty URL and no
earlier records, the amended property instantiates: the output has
pairwise-distinct non-empty URLs and the article is kept. -/
theorem C1_url_dedup_amended_witness :
    (fetch_multi_provider_news [c1a1] 5).Pairwise noDupUrl ∧
      stripTz c1a1 ∈ dedupNews [c1a1] :=
  C1_url_dedup_amended [c1a1] 5 [] [] c1a1 rfl (by decide)
    (fun b hb => absurd hb (List.not_mem_nil b))
    (fun b hb => absurd hb (List.not_mem_nil b))

/-- Article with an empty headline. -/
def c3a1 : Article := { url := "http://a.com", headline := "" }

/-- Article whose headline is whitespace only: it normalizes to the same
empty string. -/
def c3a2 : Article := { url := "http://b.com", headline := "  " }

/-- C3 counterexample: two records with identical normalized (lowercased,
trimmed) headline — both empty after normalization — BOTH survive the
Aggregator, because `if headline and ...` skips dedup for falsy headlines. -/
theorem C3_counterexample :
    normHead c3a1.headline = normHead c3a2.headline ∧ c3a1 ≠ c3a2 ∧
      c3a1 ∈ fetch_multi_provider_news [c3a1, c3a2] 50 ∧
      c3a2 ∈ fetch_multi_provider_news [c3a1, c3a2] 50 := by
  decide

/-- C3 (amended): for any two input records with identical NON-EMPTY
normalized (lowercased, trimmed) headline, the Aggregator output contains
at most one of them: no two output articles share a non-empty normalized
headline. -/
theorem C3_headline_dedup_amended (articles : List Article) (limit : Nat) :
    (fetch_multi_provider_news articles limit).Pairwise noDupHead := by
  have hd := (dedup_pairwise articles).2
  have hperm := perm_isortLe dateGe (dedupNews articles)
  have hs : (isortLe dateGe (dedupNews articles)).Pairwise noDupHead :=
    (hperm.pairwise_iff (fun h => noDupHead_symm h)).mpr hd
  exact List.Pairwise.sublist (List.take_sublist limit _) hs

/-- C4: the Aggregator output is sorted by timestamp descending, every
output timestamp is timezone-naive, and the output length is at most the
requested limit. -/
theorem C4_output_sorted_naive_bounded (articles : List Article) (limit : Nat) :
    (fetch_multi_provider_news articles limit).length ≤ limit ∧
      (∀ a ∈ fetch_multi_provider_news articles limit, a.tzAware = false) ∧
      (fetch_multi_provider_news articles limit).Pairwise
        (fun x y => y.date ≤ x.date) := by
  refine ⟨?_, ?_, ?_⟩
  · exact List.length_take_le limit _
  · intro a ha
    have h1 : a ∈ isortLe dateGe (dedupNews articles) :=
      List.take_subset limit _ ha
    have h2 : a ∈ dedupNews articles := (mem_isortLe dateGe _ a).mp h1
    exact foldl_acc_naive articles ⟨[], [], []⟩ (by simp) a h2
  · have hs := pairwise_isortLe dateGe dateGe_total dateGe_trans
      (dedupNews articles)
    have hs2 : (isortLe dateGe (dedupNews articles)).Pairwise
        (fun x y => y.date ≤ x.date) := by
      refine List.Pairwise.imp ?_ hs
      intro x y hxy
      simpa [dateGe] using hxy
    exact List.Pairwise.sublist (List.take_sublist limit _) hs2
